import Mathlib

/-!
Verification of the Entity Disambiguation and Clarification Resolution Engine
of the AFLChat repository.

The relevant program code is the `_disambiguate_player` method of
`backend/app/analytics/entity_resolver.py` and the clarification-reply block of
`understand_node` in `backend/app/agent/graph.py`, as published in the
repository documentation.  Python strings are embedded as `List Char`; the
Python primitives `str.lower`, `str.strip`, `str.replace`, `str.split` and the
substring test `in` are translated below, and the single regular expression
used by the code is translated by the deterministic search it denotes.
-/

/-- Python strings are embedded as lists of characters. -/
abbrev Str := List Char

/-- Conversion from Lean string literals to the embedding. -/
def strL (s : String) : Str := s.toList

/-- Python `str.lower()` (character-wise, as used on ASCII names). -/
def pyLower (s : Str) : Str := s.map Char.toLower

/-- Python `str.lstrip()`: drop leading whitespace. -/
def pyLStrip (s : Str) : Str := s.dropWhile Char.isWhitespace

/-- Python `str.rstrip()`: drop trailing whitespace. -/
def pyRStrip (s : Str) : Str := (s.reverse.dropWhile Char.isWhitespace).reverse

/-- Python `str.strip()`: drop whitespace on both ends. -/
def pyStrip (s : Str) : Str := pyRStrip (pyLStrip s)

/-- Decidable prefix test on the character lists (Python slice comparison). -/
def isPre : Str → Str → Bool
  | [], _ => true
  | _ :: _, [] => false
  | a :: p, b :: s => if a = b then isPre p s else false

/-- Python `needle in hay` for strings: substring containment. -/
def pyContainsSub (needle : Str) : Str → Bool
  | [] => isPre needle []
  | c :: cs => isPre needle (c :: cs) || pyContainsSub needle cs

/-- Worker for `pyReplace`, structurally recursive on a fuel argument that is
kept at least the length of the remaining text.  Scans left to right; on a
match of the pattern `a :: p` it removes it and continues after it, exactly
like CPython `str.replace(old, "")`. -/
def replGo (a : Char) (p : Str) : Nat → Str → Str
  | _, [] => []
  | 0, c :: cs => c :: cs
  | n + 1, c :: cs =>
    if isPre (a :: p) (c :: cs) then replGo a p n (cs.drop p.length)
    else c :: replGo a p n cs

/-- Python `s.replace(pat, "")`: remove every (non-overlapping, leftmost-first)
occurrence of `pat` in `s`. -/
def pyReplace (pat : Str) (s : Str) : Str :=
  match pat with
  | [] => s
  | a :: p => replGo a p s.length s

/-- Worker for `pySplitWS`, fuel kept at least the length of the remaining
text. -/
def splitWSGo : Nat → Str → List Str
  | _, [] => []
  | 0, _ :: _ => []
  | n + 1, c :: cs =>
    if c.isWhitespace then splitWSGo n cs
    else
      (c :: cs.takeWhile (fun d => !d.isWhitespace)) ::
        splitWSGo n (cs.dropWhile (fun d => !d.isWhitespace))

/-- Python `str.split()` with no argument: split on whitespace runs, discarding
empty fields. -/
def pySplitWS (s : Str) : List Str := splitWSGo s.length s

/-- Python `str.split(",")`: split on commas, keeping empty fields. -/
def pySplitComma : Str → List Str
  | [] => [[]]
  | c :: cs =>
    if c = ',' then [] :: pySplitComma cs
    else
      match pySplitComma cs with
      | [] => [[c]]
      | h :: t => (c :: h) :: t

/-!
## The clarification-reply resolver of `understand_node`

Translated from `backend/app/agent/graph.py` (the block added before the GPT
call, published in the repository documentation "Clarification Chain Message
Fix").
-/

/-- The fixed filler list of `understand_node`, in program order:
`[' please', ' thanks', ' pls', ' thx', ',', '.', ' ?']`. -/
def fillers : List Str :=
  [" please".toList, " thanks".toList, " pls".toList, " thx".toList,
   ",".toList, ".".toList, " ?".toList]

/-- The sequence of `str.replace(filler, "")` calls of `understand_node`. -/
def applyFillers (s : Str) : Str := fillers.foldl (fun acc f => pyReplace f acc) s

/-- `user_response_cleaned`: the user text lowercased, stripped, with every
filler removed, and stripped again — exactly the normalization performed by
`understand_node` on `state["user_query"]`. -/
def cleanReply (userText : Str) : Str := pyStrip (applyFillers (pyStrip (pyLower userText)))

/-- One iteration of the candidate loop of `understand_node`: does `candidate`
match the cleaned reply?  Exact equality with the lowercased candidate; else a
single-token reply must be one of the candidate words; else every reply token
must be a candidate word. -/
def candMatches (cleaned : Str) (candidate : Str) : Bool :=
  if cleaned = pyLower candidate then true
  else
    match pySplitWS cleaned with
    | [w] => (pySplitWS (pyLower candidate)).contains w
    | uw => uw.all (fun t => (pySplitWS (pyLower candidate)).contains t)

/-- The reply resolver: collect `potential_matches` over the candidates and
use the match only when it is unique (`len(potential_matches) == 1`). -/
def resolveReply (candidates : List Str) (userText : Str) : Option Str :=
  match candidates.filter (fun candidate => candMatches (cleanReply userText) candidate) with
  | [m] => some m
  | _ => none

/-!
## The regular expression of `understand_node`

`re.search(r":\s*([^.]+?)\.\s*which", content, re.IGNORECASE)`.

The search tries start positions left to right; a match must begin at a
literal `:`.  After the greedy `\s*` run, the lazy group `([^.]+?)` stops at
the first `.`, which must be followed by whitespace and then `which`
(case-insensitively).  When the first character after the whitespace run is
already the `.`, the regex engine backtracks `\s*` by one character so the
group captures that single whitespace character.
-/

/-- Attempt a match of the regex tail right after a `:`; returns the captured
group.  `s.dropWhile isWhitespace` is the text after the greedy `\s*` run;
its `takeWhile` up to the first `.` is the group. -/
def regexMatchAt (s : Str) : Option Str :=
  match (s.dropWhile Char.isWhitespace).dropWhile (fun c => !(c = '.')) with
  | [] => none
  | _ :: after =>
    if isPre ("which".toList) (pyLower (after.dropWhile Char.isWhitespace)) then
      match (s.dropWhile Char.isWhitespace).takeWhile (fun c => !(c = '.')) with
      | c :: cs => some (c :: cs)
      | [] =>
        match (s.takeWhile Char.isWhitespace).getLast? with
        | some c => some [c]
        | none => none
    else none

/-- `re.search` for the pattern above: first `:` whose tail matches wins. -/
def regexSearch : Str → Option Str
  | [] => none
  | c :: cs =>
    if c = ':' then
      match regexMatchAt cs with
      | some grp => some grp
      | none => regexSearch cs
    else regexSearch cs

/-- Candidate extraction of `understand_node`: detect a clarification question
in the assistant text, then parse the candidate names out of that free-form
text with the regex and split/strip them on commas. -/
def clarificationCandidates (content : Str) : Option (List Str) :=
  if pyContainsSub ("which player did you mean?".toList) (pyLower content)
      || pyContainsSub ("which team did you mean?".toList) (pyLower content) then
    match regexSearch content with
    | some grp => some ((pySplitComma grp).map pyStrip)
    | none => none
  else none

/-!
## The conversation state consumed by `understand_node`
-/

/-- The structured entity slots of the agent state. -/
structure Entities where
  players : List Str
  teams : List Str
  seasons : List Str
  metrics : List Str
  rounds : List Str
deriving DecidableEq

/-- One message of `conversation_history`.  `entities` is `none` when the
stored dict has no `"entities"` key. -/
structure Message where
  role : Str
  content : Str
  entities : Option Entities
deriving DecidableEq

/-- The query intent set by `understand_node`; the clarification path always
uses `SIMPLE_STAT`.  Other intents of the pipeline are abstracted by `OTHER`. -/
inductive QueryIntent
  | SIMPLE_STAT
  | OTHER (tag : Str)
deriving DecidableEq

/-- The fields of the agent state written by the clarification path. -/
structure UnderstandResult where
  entities : Entities
  intent : QueryIntent
  requires_visualization : Bool
  needs_clarification : Bool
deriving DecidableEq

/-- `for msg in reversed(conversation_history): if msg.get("role") == r: break`. -/
def lastMessageWithRole (role : Str) (history : List Message) : Option Message :=
  history.reverse.find? (fun m => m.role = role)

/-- The entity dict built on a unique match: the matched candidate in the
`players` slot, empty `teams` and `rounds`, and `seasons`/`metrics` copied
from the last user message of the history when they are non-empty (truthy)
there. -/
def carryOver (history : List Message) (matched : Str) : Entities :=
  let base : Entities := ⟨[matched], [], [], [], []⟩
  match lastMessageWithRole ("user".toList) history with
  | none => base
  | some um =>
    match um.entities with
    | none => base
    | some oe =>
      { base with
        seasons := if oe.seasons.isEmpty then base.seasons else oe.seasons,
        metrics := if oe.metrics.isEmpty then base.metrics else oe.metrics }

/-- The clarification block of `understand_node`: `some` is the early return
with resolved entities; `none` means the block fell through to the ordinary
GPT entity extraction. -/
def understand_clarification (history : List Message) (user_query : Str) :
    Option UnderstandResult :=
  if 2 ≤ history.length then
    (lastMessageWithRole ("assistant".toList) history).bind fun am =>
      (clarificationCandidates am.content).bind fun candidates =>
        (resolveReply candidates user_query).map fun matched =>
          { entities := carryOver history matched
            intent := QueryIntent.SIMPLE_STAT
            requires_visualization := false
            needs_clarification := false }
  else none

/-!
## The activity-based disambiguator

Translated from the published excerpt of `_disambiguate_player`
(`backend/app/analytics/entity_resolver.py`).
-/

/-- A name-matched player candidate together with the seasons in which it has
recorded activity (the data behind the external activity check). -/
structure Player where
  name : Str
  seasonsActive : List Str
deriving DecidableEq

/-- Modelled from the spec: `has_stats_in_season` is the external Candidate
Lookup Adapter activity check (its implementation is not part of the core);
per spec section 4.1 it is true exactly when the player has recorded activity
in at least one requested period. -/
def has_stats_in_season (p : Player) (seasons : List Str) : Bool :=
  seasons.any (fun s => p.seasonsActive.contains s)

/-- The payload of the `NeedsClarification` exception raised by
`_disambiguate_player` (the f-string message carries the player name, the
requested seasons and the active candidates; the string formatting itself is
irrelevant to the claims and is kept structured here). -/
structure NeedsClarification where
  player_name : Str
  seasons : List Str
  active_players : List Player
deriving DecidableEq

/-- Ordinary (non-raising) outcomes of `_disambiguate_player`.  The
`lowConfidence` flag records the "use first match with warning" annotation of
the zero-active fallback branch. -/
inductive DisambOutcome
  | resolved (p : Player) (lowConfidence : Bool)
  | unresolved
deriving DecidableEq

/-- Modelled from the spec: the published excerpt of `_disambiguate_player`
starts at the `len(all_matches) == 1` test and does not show the
zero-candidate branch (the full method, lines 216-389 of
`entity_resolver.py`, is not in the repository snapshot); spec section 4.1
rule 2 prescribes `Unresolved` for zero candidates, and that branch is taken
from the spec here.  All remaining branches follow the excerpt: a single
match is returned directly; with several matches the active subset decides —
exactly one active is returned, zero active falls back to the first match
with a warning (the low-confidence flag), two or more active raise
`NeedsClarification`, which the embedding delivers on the `Except.error`
channel. -/
def _disambiguate_player (player_name : Str) (all_matches : List Player)
    (seasons : List Str) : Except NeedsClarification DisambOutcome :=
  match all_matches with
  | [] => .ok .unresolved
  | [p] => .ok (.resolved p false)
  | p :: rest =>
    let active_players := (p :: rest).filter (fun q => has_stats_in_season q seasons)
    match active_players with
    | [a] => .ok (.resolved a false)
    | [] => .ok (.resolved p true)
    | _ => .error ⟨player_name, seasons, active_players⟩

/-!
## Claims about the activity-based disambiguator
-/

/-- C7: for every name whose candidate lookup returns zero candidates,
`_disambiguate_player` returns `Unresolved`; the function is total on this
path — no candidate-list indexing happens and the operation does not fail.
(The zero-candidate branch is modelled from spec section 4.1 rule 2; the
published excerpt does not show it.) -/
theorem c7_zero_candidates_unresolved (player_name : Str) (seasons : List Str) :
    _disambiguate_player player_name [] seasons = .ok .unresolved := rfl

/-- C4: with two or more name-matched candidates, a non-empty requested
period set, and exactly one candidate with recorded activity in at least one
requested period, `_disambiguate_player` resolves to that candidate (not
low-confidence): activity breaks the name tie. -/
theorem c4_activity_breaks_tie (player_name : Str) (all_matches : List Player)
    (seasons : List Str) (p : Player)
    (h2 : 2 ≤ all_matches.length) (_hs : seasons ≠ [])
    (hact : all_matches.filter (fun q => has_stats_in_season q seasons) = [p]) :
    _disambiguate_player player_name all_matches seasons = .ok (.resolved p false) := by
  match all_matches, h2 with
  | x :: y :: ys, _ =>
    simp only [_disambiguate_player]
    rw [hact]

/-- Witness for C4 at a concrete input: Gordon Dangerfield (no recorded
activity) and Patrick Dangerfield (active in 2022); the 2022 query resolves
to Patrick. -/
theorem c4_activity_breaks_tie_witness :
    _disambiguate_player ("Dangerfield".toList)
      [⟨"Gordon Dangerfield".toList, []⟩, ⟨"Patrick Dangerfield".toList, ["2022".toList]⟩]
      ["2022".toList] =
      .ok (.resolved ⟨"Patrick Dangerfield".toList, ["2022".toList]⟩ false) :=
  c4_activity_breaks_tie ("Dangerfield".toList)
    [⟨"Gordon Dangerfield".toList, []⟩, ⟨"Patrick Dangerfield".toList, ["2022".toList]⟩]
    ["2022".toList] ⟨"Patrick Dangerfield".toList, ["2022".toList]⟩
    (by decide) (by decide) (by decide)

/-- C6: with two or more candidates, a non-empty requested period set, and no
candidate active in any requested period, `_disambiguate_player` falls back
to the first candidate in lookup order and flags the result low-confidence
("use first match with warning"). -/
theorem c6_zero_active_first_low_confidence (player_name : Str) (p : Player)
    (ps : List Player) (seasons : List Str)
    (h2 : ps ≠ []) (_hs : seasons ≠ [])
    (h0 : (p :: ps).filter (fun q => has_stats_in_season q seasons) = []) :
    _disambiguate_player player_name (p :: ps) seasons = .ok (.resolved p true) := by
  match ps, h2 with
  | y :: ys, _ =>
    simp only [_disambiguate_player]
    rw [h0]

/-- Witness for C6 at a concrete input: neither namesake has activity in
1999, so the first lookup result is returned, flagged low-confidence. -/
theorem c6_zero_active_first_low_confidence_witness :
    _disambiguate_player ("Dangerfield".toList)
      [⟨"Gordon Dangerfield".toList, []⟩, ⟨"Patrick Dangerfield".toList, ["2022".toList]⟩]
      ["1999".toList] =
      .ok (.resolved ⟨"Gordon Dangerfield".toList, []⟩ true) :=
  c6_zero_active_first_low_confidence ("Dangerfield".toList)
    ⟨"Gordon Dangerfield".toList, []⟩
    [⟨"Patrick Dangerfield".toList, ["2022".toList]⟩]
    ["1999".toList] (by decide) (by decide) (by decide)

/-- C5 counterexample: the claim says ambiguity is never signalled by raising
an exception, but on two candidates both active in the requested season
`_disambiguate_player` raises `NeedsClarification` — the outcome is delivered
on the exception channel (`Except.error`), not as an ordinary return value. -/
theorem c5_counterexample :
    _disambiguate_player ("Brown".toList)
      [⟨"Tom Brown".toList, ["2022".toList]⟩, ⟨"Bob Brown".toList, ["2022".toList]⟩]
      ["2022".toList] =
      .error ⟨"Brown".toList, ["2022".toList],
        [⟨"Tom Brown".toList, ["2022".toList]⟩, ⟨"Bob Brown".toList, ["2022".toList]⟩]⟩ := rfl

/-- C5 amended: the no-match and resolved outcomes are ordinary return
values (see `c7_zero_candidates_unresolved` for the zero-candidate case),
but the ambiguity outcome is signalled by raising the `NeedsClarification`
exception: whenever two or more candidates are active in the requested
periods, `_disambiguate_player` raises, carrying the active candidates. -/
theorem c5_amended_ambiguity_raises (player_name : Str) (all_matches : List Player)
    (seasons : List Str)
    (h2 : 2 ≤ (all_matches.filter (fun q => has_stats_in_season q seasons)).length) :
    _disambiguate_player player_name all_matches seasons =
      .error ⟨player_name, seasons,
        all_matches.filter (fun q => has_stats_in_season q seasons)⟩ := by
  match all_matches with
  | [] => simp at h2
  | [x] =>
    have hle := List.length_filter_le (fun q => has_stats_in_season q seasons) [x]
    simp only [List.length_cons, List.length_nil] at hle
    omega
  | x :: y :: ys =>
    simp only [_disambiguate_player]
    match hf : (x :: y :: ys).filter (fun q => has_stats_in_season q seasons), h2 with
    | a :: b :: more, _ => rfl
    | [a], h2 => simp at h2
    | [], h2 => simp at h2

/-- Witness for C5's amended claim at a concrete input. -/
theorem c5_amended_ambiguity_raises_witness :
    _disambiguate_player ("Kelly".toList)
      [⟨"Josh Kelly".toList, ["2024".toList]⟩, ⟨"Tim Kelly".toList, ["2024".toList]⟩]
      ["2024".toList] =
      .error ⟨"Kelly".toList, ["2024".toList],
        [⟨"Josh Kelly".toList, ["2024".toList]⟩, ⟨"Tim Kelly".toList, ["2024".toList]⟩]⟩ :=
  c5_amended_ambiguity_raises ("Kelly".toList)
    [⟨"Josh Kelly".toList, ["2024".toList]⟩, ⟨"Tim Kelly".toList, ["2024".toList]⟩]
    ["2024".toList] (by decide)

/-!
## Claims about the clarification path of `understand_node`
-/

/-- Every successful early return of the clarification block has the shape
built from `carryOver`: entities from the carryover, `SIMPLE_STAT` intent, no
visualization, no pending clarification. -/
theorem understand_clarification_shape (history : List Message) (u : Str)
    (r : UnderstandResult) (h : understand_clarification history u = some r) :
    ∃ matched, r =
      ⟨carryOver history matched, QueryIntent.SIMPLE_STAT, false, false⟩ := by
  unfold understand_clarification at h
  split at h
  · rcases Option.bind_eq_some.mp h with ⟨am, _ham, h2⟩
    rcases Option.bind_eq_some.mp h2 with ⟨cands, _hc, h3⟩
    rcases Option.map_eq_some'.mp h3 with ⟨m, _hm, hr⟩
    exact ⟨m, hr.symm⟩
  · exact absurd h (by simp)

/-- The `players` slot of the carryover is exactly the matched candidate. -/
theorem carryOver_players (history : List Message) (m : Str) :
    (carryOver history m).players = [m] := by
  unfold carryOver
  rcases lastMessageWithRole ("user".toList) history with _ | ⟨r1, c1, _ | oe⟩ <;> rfl

/-- The `teams` slot of the carryover is always empty. -/
theorem carryOver_teams (history : List Message) (m : Str) :
    (carryOver history m).teams = [] := by
  unfold carryOver
  rcases lastMessageWithRole ("user".toList) history with _ | ⟨r1, c1, _ | oe⟩ <;> rfl

/-- The `rounds` slot of the carryover is always empty. -/
theorem carryOver_rounds (history : List Message) (m : Str) :
    (carryOver history m).rounds = [] := by
  unfold carryOver
  rcases lastMessageWithRole ("user".toList) history with _ | ⟨r1, c1, _ | oe⟩ <;> rfl

/-- The seasons of the original query as recorded in the history: the
`entities` stored on the most recent user message ("the ledger entry"). -/
def originalSeasons (history : List Message) : List Str :=
  match lastMessageWithRole ("user".toList) history with
  | none => []
  | some um =>
    match um.entities with
    | none => []
    | some oe => oe.seasons

/-- The metrics of the original query as recorded in the history. -/
def originalMetrics (history : List Message) : List Str :=
  match lastMessageWithRole ("user".toList) history with
  | none => []
  | some um =>
    match um.entities with
    | none => []
    | some oe => oe.metrics

/-- The carryover restores exactly the original seasons. -/
theorem carryOver_seasons (history : List Message) (m : Str) :
    (carryOver history m).seasons = originalSeasons history := by
  unfold carryOver originalSeasons
  rcases lastMessageWithRole ("user".toList) history with _ | ⟨r1, c1, _ | oe⟩
  · rfl
  · rfl
  · by_cases he : oe.seasons = []
    · simp [he]
    · simp [List.isEmpty_iff, he]

/-- The carryover restores exactly the original metrics. -/
theorem carryOver_metrics (history : List Message) (m : Str) :
    (carryOver history m).metrics = originalMetrics history := by
  unfold carryOver originalMetrics
  rcases lastMessageWithRole ("user".toList) history with _ | ⟨r1, c1, _ | oe⟩
  · rfl
  · rfl
  · by_cases he : oe.metrics = []
    · simp [he]
    · simp [List.isEmpty_iff, he]

/-- C2: whenever a clarification reply resolves, the recovered query carries
exactly the seasons and metrics of the original ambiguous query as preserved
in the conversation history (the code's ledger): the entity dict stored on
the most recent user message.  In particular non-empty periods such as
`{"2025"}` are carried over, never dropped. -/
theorem c2_context_carryover (history : List Message) (u : Str)
    (r : UnderstandResult) (h : understand_clarification history u = some r) :
    r.entities.seasons = originalSeasons history ∧
      r.entities.metrics = originalMetrics history := by
  rcases understand_clarification_shape history u r h with ⟨m, rfl⟩
  exact ⟨carryOver_seasons history m, carryOver_metrics history m⟩

/-- The Daicos conversation of the repository documentation, as stored
conversation history. -/
def c2Hist : List Message :=
  [⟨"user".toList, "how many goals did daicos kick in 2025".toList,
    some ⟨["Daicos".toList], [], ["2025".toList], ["goals".toList], []⟩⟩,
   ⟨"assistant".toList,
    ("Multiple players named Daicos were active in 2025: " ++
      "Josh Daicos, Nick Daicos. Which player did you mean?").toList,
    none⟩]

/-- Witness for C2 at the Daicos conversation: the reply "Nick please"
resolves and the recovered query carries seasons `{"2025"}` and metrics
`{"goals"}`. -/
theorem c2_context_carryover_witness :
    (⟨⟨["Nick Daicos".toList], [], ["2025".toList], ["goals".toList], []⟩,
        QueryIntent.SIMPLE_STAT, false, false⟩ : UnderstandResult).entities.seasons
        = originalSeasons c2Hist ∧
      (⟨⟨["Nick Daicos".toList], [], ["2025".toList], ["goals".toList], []⟩,
        QueryIntent.SIMPLE_STAT, false, false⟩ : UnderstandResult).entities.metrics
        = originalMetrics c2Hist :=
  c2_context_carryover c2Hist ("Nick please".toList)
    ⟨⟨["Nick Daicos".toList], [], ["2025".toList], ["goals".toList], []⟩,
      QueryIntent.SIMPLE_STAT, false, false⟩ rfl

/-- A team-clarification conversation: the last assistant message asks
"which team did you mean?", and the user entities of the original query are
in the `teams` slot. -/
def c9TeamHist : List Message :=
  [⟨"user".toList, "stats for the bulldogs in 2024".toList,
    some ⟨[], ["Bulldogs".toList], ["2024".toList], [], []⟩⟩,
   ⟨"assistant".toList,
    ("Multiple teams named Bulldogs found: " ++
      "Western Bulldogs, Footscray. Which team did you mean?").toList,
    none⟩]

/-- C9: every matched clarification reply writes the matched candidate into
the `players` entity slot and leaves the `teams` slot empty — also when the
clarification being answered was a team clarification, as the concrete
conjunct shows: answering the "which team did you mean?" question of
`c9TeamHist` puts "Western Bulldogs" into `players` and leaves `teams`
empty. -/
theorem c9_matched_candidate_in_players_slot :
    (∀ (history : List Message) (u : Str) (r : UnderstandResult),
        understand_clarification history u = some r →
          r.entities.teams = [] ∧ ∃ m, r.entities.players = [m]) ∧
      understand_clarification c9TeamHist ("western".toList) =
        some ⟨⟨["Western Bulldogs".toList], [], ["2024".toList], [], []⟩,
          QueryIntent.SIMPLE_STAT, false, false⟩ := by
  refine ⟨fun history u r h => ?_, rfl⟩
  rcases understand_clarification_shape history u r h with ⟨m, rfl⟩
  exact ⟨carryOver_teams history m, m, carryOver_players history m⟩

/-- Witness for C9 at the team conversation. -/
theorem c9_matched_candidate_in_players_slot_witness :
    (⟨⟨["Western Bulldogs".toList], [], ["2024".toList], [], []⟩,
        QueryIntent.SIMPLE_STAT, false, false⟩ : UnderstandResult).entities.teams = [] ∧
      ∃ m, (⟨⟨["Western Bulldogs".toList], [], ["2024".toList], [], []⟩,
        QueryIntent.SIMPLE_STAT, false, false⟩ : UnderstandResult).entities.players = [m] :=
  c9_matched_candidate_in_players_slot.1 c9TeamHist ("western".toList)
    ⟨⟨["Western Bulldogs".toList], [], ["2024".toList], [], []⟩,
      QueryIntent.SIMPLE_STAT, false, false⟩ rfl

/-- C10: every matched clarification reply sets the intent to `SIMPLE_STAT`
and `requires_visualization` to `false`, whatever the original query was;
only seasons and metrics are carried over from the prior turn — the `teams`
and `rounds` slots are reset to empty. -/
theorem c10_intent_reset_on_clarification (history : List Message) (u : Str)
    (r : UnderstandResult) (h : understand_clarification history u = some r) :
    r.intent = QueryIntent.SIMPLE_STAT ∧ r.requires_visualization = false ∧
      r.entities.teams = [] ∧ r.entities.rounds = [] := by
  rcases understand_clarification_shape history u r h with ⟨m, rfl⟩
  exact ⟨rfl, rfl, carryOver_teams history m, carryOver_rounds history m⟩

/-- A conversation whose original turn asked for a visualization-flavoured
comparison; the clarification reply still comes back as a plain
`SIMPLE_STAT` with no visualization. -/
def c10Hist : List Message :=
  [⟨"user".toList, "chart dangerfield disposals by season".toList,
    some ⟨["Dangerfield".toList], [], [], ["disposals".toList], []⟩⟩,
   ⟨"assistant".toList,
    ("Multiple players named Dangerfield were found: " ++
      "Gordon Dangerfield, Patrick Dangerfield. Which player did you mean?").toList,
    none⟩]

/-- Witness for C10 at a concrete conversation. -/
theorem c10_intent_reset_on_clarification_witness :
    (⟨⟨["Patrick Dangerfield".toList], [], [], ["disposals".toList], []⟩,
        QueryIntent.SIMPLE_STAT, false, false⟩ : UnderstandResult).intent
        = QueryIntent.SIMPLE_STAT ∧
      (⟨⟨["Patrick Dangerfield".toList], [], [], ["disposals".toList], []⟩,
        QueryIntent.SIMPLE_STAT, false, false⟩ : UnderstandResult).requires_visualization
        = false ∧
      (⟨⟨["Patrick Dangerfield".toList], [], [], ["disposals".toList], []⟩,
        QueryIntent.SIMPLE_STAT, false, false⟩ : UnderstandResult).entities.teams = [] ∧
      (⟨⟨["Patrick Dangerfield".toList], [], [], ["disposals".toList], []⟩,
        QueryIntent.SIMPLE_STAT, false, false⟩ : UnderstandResult).entities.rounds = [] :=
  c10_intent_reset_on_clarification c10Hist ("patrick".toList)
    ⟨⟨["Patrick Dangerfield".toList], [], [], ["disposals".toList], []⟩,
      QueryIntent.SIMPLE_STAT, false, false⟩ rfl

/-!
## Claim C3: where the candidate list comes from
-/

/-- Two conversations with identical roles and identical structured entity
data on every message, differing only in the free-form text of the assistant
message. -/
def c3HistA : List Message :=
  [⟨"user".toList, "how many goals did daicos kick in 2025".toList,
    some ⟨["Daicos".toList], [], ["2025".toList], ["goals".toList], []⟩⟩,
   ⟨"assistant".toList,
    ("Multiple players named Daicos were active in 2025: " ++
      "Josh Daicos, Nick Daicos. Which player did you mean?").toList,
    none⟩]

/-- Same structured state as `c3HistA`; only the assistant wording differs. -/
def c3HistB : List Message :=
  [⟨"user".toList, "how many goals did daicos kick in 2025".toList,
    some ⟨["Daicos".toList], [], ["2025".toList], ["goals".toList], []⟩⟩,
   ⟨"assistant".toList,
    ("Multiple players named Nick were active in 2025: " ++
      "Nick Blakey, Sam Powell. Which player did you mean?").toList,
    none⟩]

/-- C3 counterexample: the claim says the resolver matches the reply against
a structured candidate list stored at creation time and never re-parses the
assistant text.  But `c3HistA` and `c3HistB` agree on every structured field
(roles and entity dicts), and the same reply "nick" resolves to different
candidates — the candidate list is recovered by parsing the free-form
assistant message text, so the resolution depends on that text. -/
theorem c3_counterexample :
    (c3HistA.map Message.role = c3HistB.map Message.role ∧
      c3HistA.map Message.entities = c3HistB.map Message.entities) ∧
      understand_clarification c3HistA ("nick".toList) =
        some ⟨⟨["Nick Daicos".toList], [], ["2025".toList], ["goals".toList], []⟩,
          QueryIntent.SIMPLE_STAT, false, false⟩ ∧
      understand_clarification c3HistB ("nick".toList) =
        some ⟨⟨["Nick Blakey".toList], [], ["2025".toList], ["goals".toList], []⟩,
          QueryIntent.SIMPLE_STAT, false, false⟩ ∧
      ("Nick Daicos".toList : Str) ≠ ("Nick Blakey".toList : Str) := by
  exact ⟨⟨rfl, rfl⟩, rfl, rfl, by decide⟩

/-- The comma-join used by the f-string of the clarification message
(`", ".join(active_players)`). -/
def joinComma : List Str → Str
  | [] => []
  | [n] => n
  | n :: ns => n ++ ", ".toList ++ joinComma ns

/-- The canonical clarification message shape produced by the backend:
free-form prefix, a colon, the comma-joined candidate names, a period, and
the question. -/
def mkClarificationText (prefixTxt : Str) (names : List Str) : Str :=
  prefixTxt ++ ": ".toList ++ joinComma names ++ ". Which player did you mean?".toList

/-- Substring containment is preserved by prepending text. -/
theorem pyContainsSub_append_left (needle x y : Str)
    (h : pyContainsSub needle y = true) : pyContainsSub needle (x ++ y) = true := by
  induction x with
  | nil => simpa using h
  | cons c cs ih =>
    simp only [List.cons_append, pyContainsSub, Bool.or_eq_true]
    exact Or.inr ih

/-- The regex search skips any prefix that contains no colon. -/
theorem regexSearch_append_no_colon (pre s : Str)
    (h : pre.all (fun c => !(c = ':')) = true) :
    regexSearch (pre ++ s) = regexSearch s := by
  induction pre with
  | nil => rfl
  | cons c cs ih =>
    simp only [List.all_cons, Bool.and_eq_true, Bool.not_eq_eq_eq_not, Bool.not_true,
      decide_eq_false_iff_not] at h
    simp only [List.cons_append, regexSearch, if_neg h.1]
    exact ih (by simpa using h.2)

/-- `takeWhile` passes over a block all of whose characters satisfy the
predicate. -/
theorem takeWhile_append_all (p : Char → Bool) (x y : Str)
    (h : x.all p = true) : (x ++ y).takeWhile p = x ++ y.takeWhile p := by
  induction x with
  | nil => rfl
  | cons c cs ih =>
    simp only [List.all_cons, Bool.and_eq_true] at h
    simp [List.takeWhile_cons, h.1, ih h.2]

/-- `dropWhile` passes over a block all of whose characters satisfy the
predicate. -/
theorem dropWhile_append_all (p : Char → Bool) (x y : Str)
    (h : x.all p = true) : (x ++ y).dropWhile p = y.dropWhile p := by
  induction x with
  | nil => rfl
  | cons c cs ih =>
    simp only [List.all_cons, Bool.and_eq_true] at h
    simp [List.dropWhile_cons, h.1, ih h.2]

/-- `pySplitComma` never returns the empty list. -/
theorem pySplitComma_ne_nil (s : Str) : pySplitComma s ≠ [] := by
  induction s with
  | nil => simp [pySplitComma]
  | cons c cs ih =>
    by_cases hc : c = ','
    · simp [pySplitComma, hc]
    · match hm : pySplitComma cs with
      | [] => exact absurd hm ih
      | h :: t => simp [pySplitComma, hc, hm]

/-- Splitting after a comma-free block prepends the block to the first
field. -/
theorem pySplitComma_append_free (x y : Str)
    (h : x.all (fun c => !(c = ',')) = true) :
    ∃ f t, pySplitComma y = f :: t ∧ pySplitComma (x ++ y) = (x ++ f) :: t := by
  induction x with
  | nil =>
    match hm : pySplitComma y with
    | [] => exact absurd hm (pySplitComma_ne_nil y)
    | f :: t => exact ⟨f, t, rfl, by simp only [List.nil_append, hm]⟩
  | cons c cs ih =>
    simp only [List.all_cons, Bool.and_eq_true, Bool.not_eq_eq_eq_not, Bool.not_true,
      decide_eq_false_iff_not] at h
    rcases ih (by simpa using h.2) with ⟨f, t, hy, hxy⟩
    exact ⟨f, t, hy, by simp [pySplitComma, h.1, hxy]⟩

/-- A comma-free text splits into a single field. -/
theorem pySplitComma_free (x : Str) (h : x.all (fun c => !(c = ',')) = true) :
    pySplitComma x = [x] := by
  rcases pySplitComma_append_free x [] h with ⟨f, t, hy, hxy⟩
  have hf : f = [] := by
    have : ([[]] : List Str) = f :: t := by simpa [pySplitComma] using hy
    exact (List.cons.injEq _ _ _ _ ▸ this.symm).1
  have ht : t = [] := by
    have : ([[]] : List Str) = f :: t := by simpa [pySplitComma] using hy
    exact (List.cons.injEq _ _ _ _ ▸ this.symm).2
  simpa [hf, ht] using hxy

/-- Conjunction on the right of a character-wise `all` can be projected. -/
theorem all_and_right (p q : Char → Bool) (x : Str)
    (h : x.all (fun c => p c && q c) = true) : x.all q = true := by
  rw [List.all_eq_true] at h ⊢
  exact fun c hc => (Bool.and_eq_true _ _ |>.mp (h c hc)).2

/-- Conjunction on the left of a character-wise `all` can be projected. -/
theorem all_and_left (p q : Char → Bool) (x : Str)
    (h : x.all (fun c => p c && q c) = true) : x.all p = true := by
  rw [List.all_eq_true] at h ⊢
  exact fun c hc => (Bool.and_eq_true _ _ |>.mp (h c hc)).1

/-- A character-wise property carries over the comma-join when it holds on
every name and on the separator. -/
theorem joinComma_all (p : Char → Bool) (hsep : p ',' = true) (hsp : p ' ' = true)
    (names : List Str) (h : ∀ n ∈ names, n.all p = true) :
    (joinComma names).all p = true := by
  induction names with
  | nil => rfl
  | cons n ns ih =>
    match ns with
    | [] => exact h n (by simp)
    | m :: ms =>
      have h1 : n.all p = true := h n (by simp)
      have h2 : (joinComma (m :: ms)).all p = true :=
        ih (fun x hx => h x (List.mem_cons_of_mem n hx))
      simp only [joinComma, List.all_append, Bool.and_eq_true]
      exact ⟨⟨h1, by simp [hsep, hsp]⟩, h2⟩

/-- The comma-join of names starting with `c :: l` itself starts with `c`. -/
theorem joinComma_cons_head (c : Char) (l : Str) (ns : List Str) :
    ∃ tail, joinComma ((c :: l) :: ns) = c :: tail := by
  match ns with
  | [] => exact ⟨l, rfl⟩
  | m :: ms => exact ⟨l ++ ", ".toList ++ joinComma (m :: ms), by simp [joinComma]⟩

/-- Stripping ignores a leading whitespace character. -/
theorem pyStrip_cons_ws (c : Char) (s : Str) (h : c.isWhitespace = true) :
    pyStrip (c :: s) = pyStrip s := by
  simp [pyStrip, pyLStrip, List.dropWhile_cons, h]

/-- Stripping never lengthens a string. -/
theorem pyStrip_length_le (s : Str) : (pyStrip s).length ≤ s.length := by
  have h1 : (pyLStrip s).length ≤ s.length := (List.dropWhile_sublist _).length_le
  have h2 : (pyStrip s).length ≤ (pyLStrip s).length := by
    simp only [pyStrip, pyRStrip, List.length_reverse]
    exact le_trans (List.dropWhile_sublist _).length_le (by simp)
  exact le_trans h2 h1

/-- A string equal to its own strip starts with a non-whitespace character. -/
theorem stripped_head_not_ws (c : Char) (l : Str) (h : pyStrip (c :: l) = c :: l) :
    c.isWhitespace = false := by
  cases hws : c.isWhitespace with
  | false => rfl
  | true =>
    have hlt : (pyStrip (c :: l)).length ≤ l.length := by
      rw [pyStrip_cons_ws c l hws]
      exact pyStrip_length_le l
    rw [h] at hlt
    simp at hlt

/-- Splitting the comma-join of comma-free names recovers the names, the
later ones with the separator space still attached. -/
theorem pySplitComma_joinComma (n : Str) (ns : List Str)
    (hall : ∀ m ∈ n :: ns, m.all (fun c => !(c = ',')) = true) :
    pySplitComma (joinComma (n :: ns)) = n :: ns.map (fun m => ' ' :: m) := by
  induction ns generalizing n with
  | nil => exact pySplitComma_free n (hall n (by simp))
  | cons m ms ih =>
    have hJ := ih m (fun x hx => hall x (List.mem_cons_of_mem n hx))
    have hn : n.all (fun c => !(c = ',')) = true := hall n (by simp)
    have hstep : joinComma (n :: m :: ms) = n ++ (',' :: ' ' :: joinComma (m :: ms)) := by
      simp [joinComma]
    rcases pySplitComma_append_free n (',' :: ' ' :: joinComma (m :: ms)) hn
      with ⟨f, t, hy, hxy⟩
    have hy2 : pySplitComma (',' :: ' ' :: joinComma (m :: ms)) =
        [] :: (' ' :: m) :: ms.map (fun x => ' ' :: x) := by
      simp [pySplitComma, hJ]
    rw [hy2] at hy
    rcases List.cons.injEq _ _ _ _ ▸ hy with ⟨hf, ht⟩
    rw [hstep, hxy, ← hf, ← ht]
    simp

/-- The canonical clarification text in explicit head form. -/
theorem mkClarificationText_shape (prefixTxt : Str) (names : List Str) :
    mkClarificationText prefixTxt names =
      prefixTxt ++
        (':' :: ' ' ::
          (joinComma names ++ ". Which player did you mean?".toList)) := by
  show prefixTxt ++ [':', ' '] ++ joinComma names ++
      ". Which player did you mean?".toList = _
  simp [List.append_assoc]

/-- Parsing the regex tail of a canonical clarification message captures
exactly the comma-joined names. -/
theorem regexMatchAt_canonical (c1 : Char) (jt : Str)
    (hcw : c1.isWhitespace = false)
    (hdot : (c1 :: jt).all (fun c => !(c = '.')) = true) :
    regexMatchAt
        (' ' :: ((c1 :: jt) ++ ". Which player did you mean?".toList)) =
      some (c1 :: jt) := by
  have hw : (' ' :: ((c1 :: jt) ++ ". Which player did you mean?".toList)).dropWhile
      Char.isWhitespace = (c1 :: jt) ++ ". Which player did you mean?".toList := by
    simp [List.dropWhile_cons, hcw]
  have hdq : ((c1 :: jt) ++ ". Which player did you mean?".toList).dropWhile
      (fun c => !(c = '.')) = '.' :: " Which player did you mean?".toList := by
    rw [dropWhile_append_all _ _ _ hdot]
    decide
  have htk : ((c1 :: jt) ++ ". Which player did you mean?".toList).takeWhile
      (fun c => !(c = '.')) = c1 :: jt := by
    rw [takeWhile_append_all _ _ _ hdot]
    have hq : (". Which player did you mean?".toList).takeWhile
        (fun c => !(c = '.')) = [] := by decide
    rw [hq, List.append_nil]
  have htail : isPre ("which".toList)
      (pyLower ((" Which player did you mean?".toList).dropWhile Char.isWhitespace)) =
      true := by decide
  unfold regexMatchAt
  rw [hw, hdq, htk]
  rfl

/-- Stripping the later fields of the split (one leading separator space
each) recovers the names. -/
theorem map_pyStrip_spaced (ns : List Str) (h : ∀ m ∈ ns, pyStrip m = m) :
    (ns.map (fun m => ' ' :: m)).map pyStrip = ns := by
  induction ns with
  | nil => rfl
  | cons m ms ih =>
    simp only [List.map_cons]
    rw [pyStrip_cons_ws _ _ (by decide), h m (by simp),
      ih (fun x hx => h x (by simp [hx]))]

/-- C3 amended: the reply resolver derives the candidate list by re-parsing
the free-form assistant message text on every reply — no structured
candidate list is stored with the conversation, so the resolution depends on
the assistant wording (see `c3_counterexample`).  For every message of the
canonical clarification shape (a colon-free prefix, a colon, the
comma-joined stripped candidate names without periods or commas, a period
and the question), the regex-based extraction recovers exactly the listed
names, which the reply is then matched against. -/
theorem c3_amended_candidates_reparsed (prefixTxt : Str) (names : List Str)
    (hpre : prefixTxt.all (fun c => !(c = ':')) = true)
    (hne : names ≠ [])
    (hfree : ∀ n ∈ names, n.all (fun c => !(c = '.') && !(c = ',')) = true)
    (hstr : ∀ n ∈ names, pyStrip n = n ∧ n ≠ []) :
    clarificationCandidates (mkClarificationText prefixTxt names) = some names := by
  match names, hne with
  | n1 :: ns, _ =>
    obtain ⟨c1, l1, rfl⟩ : ∃ c l, n1 = c :: l := by
      match n1, (hstr n1 (by simp)).2 with
      | c :: l, _ => exact ⟨c, l, rfl⟩
    have hstrip1 : pyStrip (c1 :: l1) = c1 :: l1 := (hstr _ (by simp)).1
    have hcw : c1.isWhitespace = false := stripped_head_not_ws c1 l1 hstrip1
    have hdotJ : (joinComma ((c1 :: l1) :: ns)).all (fun c => !(c = '.')) = true :=
      joinComma_all _ (by decide) (by decide) _
        (fun n hn => all_and_left _ _ n (hfree n hn))
    rcases joinComma_cons_head c1 l1 ns with ⟨jtail, hJ⟩
    have hdet : pyContainsSub ("which player did you mean?".toList)
        (pyLower (mkClarificationText prefixTxt ((c1 :: l1) :: ns))) = true := by
      rw [mkClarificationText_shape]
      have hsplit : pyLower (prefixTxt ++
          (':' :: ' ' :: (joinComma ((c1 :: l1) :: ns) ++
            ". Which player did you mean?".toList))) =
          pyLower (prefixTxt ++
            (':' :: ' ' :: joinComma ((c1 :: l1) :: ns))) ++
            pyLower (". Which player did you mean?".toList) := by
        simp [pyLower]
      rw [hsplit]
      exact pyContainsSub_append_left _ _ _ (by decide)
    have hmatch : regexMatchAt (' ' :: (joinComma ((c1 :: l1) :: ns) ++
        ". Which player did you mean?".toList)) =
        some (joinComma ((c1 :: l1) :: ns)) := by
      rw [hJ]
      exact regexMatchAt_canonical c1 jtail hcw (hJ ▸ hdotJ)
    have hsearch : regexSearch (mkClarificationText prefixTxt ((c1 :: l1) :: ns)) =
        some (joinComma ((c1 :: l1) :: ns)) := by
      rw [mkClarificationText_shape,
        regexSearch_append_no_colon prefixTxt _ hpre]
      simp only [regexSearch]
      rw [hmatch]
      rfl
    have hsplitJ : (pySplitComma (joinComma ((c1 :: l1) :: ns))).map pyStrip =
        (c1 :: l1) :: ns := by
      rw [pySplitComma_joinComma _ _
        (fun m hm => all_and_right _ _ m (hfree m hm))]
      simp only [List.map_cons, hstrip1]
      rw [map_pyStrip_spaced ns (fun x hx => (hstr x (by simp [hx])).1)]
    unfold clarificationCandidates
    rw [if_pos (Bool.or_eq_true _ _ |>.mpr (Or.inl hdet)), hsearch]
    exact congrArg some hsplitJ

/-- Witness for C3's amended claim: the canonical Daicos clarification
message parses back into exactly its two candidate names. -/
theorem c3_amended_candidates_reparsed_witness :
    clarificationCandidates
        (mkClarificationText
          ("Multiple players named Daicos were active in 2025".toList)
          [ "Josh Daicos".toList, "Nick Daicos".toList ]) =
      some [ "Josh Daicos".toList, "Nick Daicos".toList ] :=
  c3_amended_candidates_reparsed
    ("Multiple players named Daicos were active in 2025".toList)
    [ "Josh Daicos".toList, "Nick Daicos".toList ]
    (by decide) (by decide) (by decide) (by decide)

/-!
## Claim C1: uniqueness of the reply match
-/

/-- The matching rule in the words of the claim: a candidate matches the
normalized reply when the reply equals the lowercased display name, or every
reply token occurs as a whole word of the display name (for a single-token
reply this is exactly whole-word containment). -/
def specMatches (cleaned : Str) (candidate : Str) : Bool :=
  decide (cleaned = pyLower candidate) ||
    (pySplitWS cleaned).all (fun t => (pySplitWS (pyLower candidate)).contains t)

/-- The resolution rule in the words of the claim: a resolution is returned
exactly when exactly one candidate matches; with zero or several matching
candidates the result is `none`. -/
def specResolve (candidates : List Str) (userText : Str) : Option Str :=
  match candidates.filter (fun candidate => specMatches (cleanReply userText) candidate) with
  | [m] => some m
  | _ => none

/-- The candidate loop of the code coincides pointwise with the claim's
matching rule. -/
theorem candMatches_eq_specMatches (cleaned candidate : Str) :
    candMatches cleaned candidate = specMatches cleaned candidate := by
  unfold candMatches specMatches
  by_cases he : cleaned = pyLower candidate
  · simp [he]
  · rw [if_neg he]
    match hw : pySplitWS cleaned with
    | [] => simp [he, hw]
    | [w] => simp [he, hw]
    | w1 :: w2 :: ws => simp [he, hw]

/-- C1: the reply resolver returns a resolution exactly when exactly one
candidate matches the normalized reply by the claim's three rules, and
returns `none` on zero or several matches; in particular, against the
candidates ["Josh Daicos", "Nick Daicos"] the reply "Nick" resolves to
"Nick Daicos" while the reply "Daicos" stays ambiguous. -/
theorem c1_reply_uniqueness :
    (∀ (candidates : List Str) (userText : Str),
        resolveReply candidates userText = specResolve candidates userText) ∧
      resolveReply [ "Josh Daicos".toList, "Nick Daicos".toList ] ("Nick".toList) =
        some ("Nick Daicos".toList) ∧
      resolveReply [ "Josh Daicos".toList, "Nick Daicos".toList ] ("Daicos".toList) =
        none := by
  refine ⟨fun candidates userText => ?_, by decide, by decide⟩
  unfold resolveReply specResolve
  rw [List.filter_congr
    (fun c _hc => candMatches_eq_specMatches (cleanReply userText) c)]

/-!
## Claim C8: filler-word tolerance

The normalization of `understand_node` removes each filler with a Python
`str.replace`.  The lemmas below characterize `pyReplace` on appended
blocks: a trailing occurrence of a self-non-overlapping pattern is removed
(`pyReplace_append_absorb`), and a trailing block in which the pattern
cannot occur — not even across the boundary — passes through untouched
(`pyReplace_append_pass`).
-/

/-- A prefix is never longer than the text. -/
theorem isPre_length_le (p : Str) : ∀ s, isPre p s = true → p.length ≤ s.length := by
  induction p with
  | nil => simp
  | cons a p' ih =>
    intro s h
    match s with
    | [] => simp [isPre] at h
    | b :: s' =>
      simp only [isPre] at h
      by_cases hab : a = b
      · rw [if_pos hab] at h
        have := ih s' h
        simp only [List.length_cons]
        omega
      · rw [if_neg hab] at h
        exact absurd h (by simp)

/-- Every list is a prefix of itself. -/
theorem isPre_refl (p : Str) : isPre p p = true := by
  induction p with
  | nil => rfl
  | cons a p' ih => simp [isPre, ih]

/-- A prefix of `s` is a prefix of `s ++ t`. -/
theorem isPre_append_left (p : Str) : ∀ s t, isPre p s = true →
    isPre p (s ++ t) = true := by
  induction p with
  | nil => intro s t _; rfl
  | cons a p' ih =>
    intro s t h
    match s with
    | [] => simp [isPre] at h
    | b :: s' =>
      simp only [List.cons_append, isPre] at h ⊢
      by_cases hab : a = b
      · rw [if_pos hab] at h ⊢
        exact ih s' t h
      · rw [if_neg hab] at h
        exact absurd h (by simp)

/-- A pattern no longer than `s` is a prefix of `s ++ t` exactly when it is
a prefix of `s`. -/
theorem isPre_append_stop (p : Str) : ∀ s t, p.length ≤ s.length →
    isPre p (s ++ t) = isPre p s := by
  induction p with
  | nil => intro s t _; rfl
  | cons a p' ih =>
    intro s t h
    match s with
    | [] => simp at h
    | b :: s' =>
      simp only [List.cons_append, isPre]
      by_cases hab : a = b
      · rw [if_pos hab, if_pos hab]
        exact ih s' t (by simp only [List.length_cons] at h; omega)
      · rw [if_neg hab, if_neg hab]

/-- A pattern that is a prefix of `s ++ t` but longer than `s` continues as
a prefix of `t` after its first `s.length` characters. -/
theorem isPre_split_drop (p s t : Str) (h : isPre p (s ++ t) = true)
    (hlt : s.length < p.length) : isPre (p.drop s.length) t = true := by
  induction s generalizing p with
  | nil => simpa using h
  | cons b s' ih =>
    match p with
    | [] => simp at hlt
    | a :: p' =>
      simp only [List.cons_append, isPre] at h
      by_cases hab : a = b
      · rw [if_pos hab] at h
        have := ih p' h (by simp only [List.length_cons] at hlt ⊢; omega)
        simpa using this
      · rw [if_neg hab] at h
        exact absurd h (by simp)

/-- A prefix of a text whose characters all satisfy `q` satisfies `q`
throughout. -/
theorem isPre_all (p : Str) (q : Char → Bool) : ∀ z, isPre p z = true →
    z.all q = true → p.all q = true := by
  induction p with
  | nil => intro z _ _; rfl
  | cons a p' ih =>
    intro z h hz
    match z with
    | [] => simp [isPre] at h
    | b :: z' =>
      simp only [isPre] at h
      by_cases hab : a = b
      · rw [if_pos hab] at h
        simp only [List.all_cons, Bool.and_eq_true] at hz ⊢
        exact ⟨hab ▸ hz.1, ih z' h hz.2⟩
      · rw [if_neg hab] at h
        exact absurd h (by simp)

/-- The replacement worker ignores the exact fuel as long as it covers the
text length. -/
theorem replGo_fuel (a : Char) (p' : Str) :
    ∀ (n m : Nat) (s : Str), s.length ≤ n → s.length ≤ m →
      replGo a p' n s = replGo a p' m s := by
  intro n
  induction n with
  | zero =>
    intro m s hn _hm
    have hs : s = [] := List.eq_nil_of_length_eq_zero (Nat.le_zero.mp hn)
    subst hs
    cases m <;> rfl
  | succ n ih =>
    intro m s hn hm
    match s with
    | [] => cases m <;> rfl
    | c :: cs =>
      cases m with
      | zero => simp at hm
      | succ m' =>
        simp only [replGo]
        by_cases hp : isPre (a :: p') (c :: cs) = true
        · rw [if_pos hp, if_pos hp]
          have hb : (cs.drop p'.length).length ≤ cs.length := by
            rw [List.length_drop]
            exact Nat.sub_le _ _
          simp only [List.length_cons] at hn hm
          exact ih m' (cs.drop p'.length) (le_trans hb (by omega)) (le_trans hb (by omega))
        · rw [if_neg hp, if_neg hp]
          simp only [List.length_cons] at hn hm
          rw [ih m' cs (by omega) (by omega)]

/-- Replacement in the empty text. -/
theorem pyReplace_nil (pat : Str) : pyReplace pat [] = [] := by
  match pat with
  | [] => rfl
  | a :: p' => rfl

/-- The one-step unfolding of `pyReplace` on a non-empty text. -/
theorem pyReplace_cons (a : Char) (p' : Str) (c : Char) (cs : Str) :
    pyReplace (a :: p') (c :: cs) =
      if isPre (a :: p') (c :: cs) then pyReplace (a :: p') (cs.drop p'.length)
      else c :: pyReplace (a :: p') cs := by
  show replGo a p' (c :: cs).length (c :: cs) = _
  simp only [List.length_cons, replGo]
  by_cases hp : isPre (a :: p') (c :: cs) = true
  · rw [if_pos hp, if_pos hp]
    exact replGo_fuel a p' cs.length (cs.drop p'.length).length (cs.drop p'.length)
      (by rw [List.length_drop]; exact Nat.sub_le _ _) (le_refl _)
  · rw [if_neg hp, if_neg hp]
    rfl

/-- A pattern that occurs nowhere in `t` leaves `t` unchanged. -/
theorem pyReplace_no_occur (pat : Str) (hne : pat ≠ []) :
    ∀ t, (∀ k, isPre pat (t.drop k) = false) → pyReplace pat t = t := by
  match pat, hne with
  | a :: p', _ =>
    intro t
    induction t with
    | nil => intro _; exact pyReplace_nil _
    | cons c cs ih =>
      intro Ha
      rw [pyReplace_cons]
      have h0 : isPre (a :: p') (c :: cs) = false := by
        have := Ha 0
        simpa using this
      rw [if_neg (by simp [h0])]
      rw [ih (fun k => by simpa using Ha (k + 1))]

/-- Appending a block in which the pattern cannot occur (also not across the
boundary: no non-trivial suffix of the pattern starts the block) commutes
with the replacement. -/
theorem pyReplace_append_pass (pat t : Str) (hne : pat ≠ [])
    (Ha : ∀ k, k < t.length + 1 → isPre pat (t.drop k) = false)
    (Hb : ∀ k, k < pat.length → 0 < k → isPre (pat.drop k) t = false) :
    ∀ s, pyReplace pat (s ++ t) = pyReplace pat s ++ t := by
  match pat, hne with
  | a :: p', _ =>
    have Ha' : ∀ k, isPre (a :: p') (t.drop k) = false := by
      intro k
      by_cases hk : k < t.length + 1
      · exact Ha k hk
      · rw [List.drop_eq_nil_of_le (by omega)]
        rfl
    have main : ∀ N s, s.length ≤ N →
        pyReplace (a :: p') (s ++ t) = pyReplace (a :: p') s ++ t := by
      intro N
      induction N with
      | zero =>
        intro s hs
        have hs0 : s = [] := List.eq_nil_of_length_eq_zero (Nat.le_zero.mp hs)
        subst hs0
        simp only [List.nil_append, pyReplace_nil]
        exact pyReplace_no_occur (a :: p') (by simp) t Ha'
      | succ N ih =>
        intro s hs
        match s with
        | [] =>
          simp only [List.nil_append, pyReplace_nil]
          exact pyReplace_no_occur (a :: p') (by simp) t Ha'
        | c :: cs =>
          simp only [List.cons_append, pyReplace_cons]
          by_cases hp : isPre (a :: p') (c :: cs) = true
          · have hp2 : isPre (a :: p') (c :: (cs ++ t)) = true := by
              have := isPre_append_left (a :: p') (c :: cs) t hp
              simpa using this
            rw [if_pos hp2, if_pos hp]
            have hlen : p'.length ≤ cs.length := by
              have := isPre_length_le (a :: p') (c :: cs) hp
              simp only [List.length_cons] at this
              omega
            rw [List.drop_append_of_le_length hlen]
            simp only [List.length_cons] at hs
            exact ih (cs.drop p'.length) (by rw [List.length_drop]; omega)
          · have hp2 : ¬ isPre (a :: p') (c :: (cs ++ t)) = true := by
              intro hbig
              by_cases hll : (a :: p').length ≤ (c :: cs).length
              · have hstop := isPre_append_stop (a :: p') (c :: cs) t hll
                simp only [List.cons_append] at hstop
                rw [hstop] at hbig
                exact hp hbig
              · have hsp := isPre_split_drop (a :: p') (c :: cs) t
                  (by simpa [List.cons_append] using hbig)
                  (by simp only [List.length_cons] at hll ⊢; omega)
                rw [Hb (c :: cs).length
                  (by simp only [List.length_cons] at hll ⊢; omega) (by simp)] at hsp
                exact Bool.false_ne_true hsp
            rw [if_neg hp2, if_neg hp]
            simp only [List.length_cons] at hs
            rw [ih cs (by omega)]
            rfl
    intro s
    exact main s.length s (le_refl _)

/-- A trailing occurrence of a self-non-overlapping pattern is removed by
the replacement. -/
theorem pyReplace_append_absorb (pat : Str) (hne : pat ≠ [])
    (Hb : ∀ k, k < pat.length → 0 < k → isPre (pat.drop k) pat = false) :
    ∀ s, pyReplace pat (s ++ pat) = pyReplace pat s := by
  match pat, hne with
  | a :: p', _ =>
    have hPP : pyReplace (a :: p') (a :: p') = pyReplace (a :: p') [] := by
      rw [pyReplace_cons, if_pos (isPre_refl _), List.drop_length]
    have main : ∀ N s, s.length ≤ N →
        pyReplace (a :: p') (s ++ (a :: p')) = pyReplace (a :: p') s := by
      intro N
      induction N with
      | zero =>
        intro s hs
        have hs0 : s = [] := List.eq_nil_of_length_eq_zero (Nat.le_zero.mp hs)
        subst hs0
        simpa using hPP
      | succ N ih =>
        intro s hs
        match s with
        | [] => simpa using hPP
        | c :: cs =>
          simp only [List.cons_append, pyReplace_cons]
          by_cases hp : isPre (a :: p') (c :: cs) = true
          · have hp2 : isPre (a :: p') (c :: (cs ++ (a :: p'))) = true := by
              have := isPre_append_left (a :: p') (c :: cs) (a :: p') hp
              simpa using this
            rw [if_pos hp2, if_pos hp]
            have hlen : p'.length ≤ cs.length := by
              have := isPre_length_le (a :: p') (c :: cs) hp
              simp only [List.length_cons] at this
              omega
            rw [List.drop_append_of_le_length hlen]
            simp only [List.length_cons] at hs
            exact ih (cs.drop p'.length) (by rw [List.length_drop]; omega)
          · have hp2 : ¬ isPre (a :: p') (c :: (cs ++ (a :: p'))) = true := by
              intro hbig
              by_cases hll : (a :: p').length ≤ (c :: cs).length
              · have hstop := isPre_append_stop (a :: p') (c :: cs) (a :: p') hll
                simp only [List.cons_append] at hstop
                rw [hstop] at hbig
                exact hp hbig
              · have hsp := isPre_split_drop (a :: p') (c :: cs) (a :: p')
                  (by simpa [List.cons_append] using hbig)
                  (by simp only [List.length_cons] at hll ⊢; omega)
                rw [Hb (c :: cs).length
                  (by simp only [List.length_cons] at hll ⊢; omega) (by simp)] at hsp
                exact Bool.false_ne_true hsp
            rw [if_neg hp2, if_neg hp]
            simp only [List.length_cons] at hs
            rw [ih cs (by omega)]
    intro s
    exact main s.length s (le_refl _)

/-- A character-wise property survives `drop`. -/
theorem all_drop (q : Char → Bool) (w : Str) (k : Nat) (h : w.all q = true) :
    (w.drop k).all q = true := by
  rw [List.all_eq_true] at h ⊢
  exact fun c hc => h c (List.drop_subset k w hc)

/-- Appending all-whitespace text commutes with removing a pattern that has
non-whitespace content in every non-trivial suffix. -/
theorem pyReplace_append_pass_ws (pat w : Str) (hne : pat ≠ [])
    (hPa : pat.all Char.isWhitespace = false)
    (hPb : ∀ k, k < pat.length → 0 < k →
      (pat.drop k).all Char.isWhitespace = false)
    (hw : w.all Char.isWhitespace = true) :
    ∀ s, pyReplace pat (s ++ w) = pyReplace pat s ++ w := by
  apply pyReplace_append_pass pat w hne
  · intro k _
    cases hb : isPre pat (w.drop k) with
    | false => rfl
    | true =>
      have hall := isPre_all pat Char.isWhitespace (w.drop k) hb (all_drop _ _ _ hw)
      rw [hPa] at hall
      exact absurd hall (by simp)
  · intro k hk h0
    cases hb : isPre (pat.drop k) w with
    | false => rfl
    | true =>
      have hall := isPre_all (pat.drop k) Char.isWhitespace w hb hw
      rw [hPb k hk h0] at hall
      exact absurd hall (by simp)

/-- The filler chain of `understand_node`, unfolded. -/
theorem applyFillers_eq (s : Str) :
    applyFillers s =
      pyReplace (" ?".toList)
        (pyReplace (".".toList)
          (pyReplace (",".toList)
            (pyReplace (" thx".toList)
              (pyReplace (" pls".toList)
                (pyReplace (" thanks".toList)
                  (pyReplace (" please".toList) s)))))) := by
  simp only [applyFillers, fillers, List.foldl]

/-- The whole filler chain passes an all-whitespace tail through. -/
theorem applyFillers_append_ws (w : Str) (hw : w.all Char.isWhitespace = true)
    (s : Str) : applyFillers (s ++ w) = applyFillers s ++ w := by
  rw [applyFillers_eq, applyFillers_eq]
  rw [pyReplace_append_pass_ws (" please".toList) w (by decide) (by decide) (by decide) hw,
    pyReplace_append_pass_ws (" thanks".toList) w (by decide) (by decide) (by decide) hw,
    pyReplace_append_pass_ws (" pls".toList) w (by decide) (by decide) (by decide) hw,
    pyReplace_append_pass_ws (" thx".toList) w (by decide) (by decide) (by decide) hw,
    pyReplace_append_pass_ws (",".toList) w (by decide) (by decide) (by decide) hw,
    pyReplace_append_pass_ws (".".toList) w (by decide) (by decide) (by decide) hw,
    pyReplace_append_pass_ws (" ?".toList) w (by decide) (by decide) (by decide) hw]

/-- The whole filler chain removes one appended filler token: the earlier
replacements pass it through and its own replacement absorbs it. -/
theorem applyFillers_absorb (f : Str) (hf : f ∈ fillers) (s : Str) :
    applyFillers (s ++ f) = applyFillers s := by
  rw [applyFillers_eq, applyFillers_eq]
  simp only [fillers, List.mem_cons, List.not_mem_nil, or_false] at hf
  rcases hf with rfl | rfl | rfl | rfl | rfl | rfl | rfl
  · rw [pyReplace_append_absorb (" please".toList) (by decide) (by decide)]
  · rw [pyReplace_append_pass (" please".toList) (" thanks".toList)
        (by decide) (by decide) (by decide),
      pyReplace_append_absorb (" thanks".toList) (by decide) (by decide)]
  · rw [pyReplace_append_pass (" please".toList) (" pls".toList)
        (by decide) (by decide) (by decide),
      pyReplace_append_pass (" thanks".toList) (" pls".toList)
        (by decide) (by decide) (by decide),
      pyReplace_append_absorb (" pls".toList) (by decide) (by decide)]
  · rw [pyReplace_append_pass (" please".toList) (" thx".toList)
        (by decide) (by decide) (by decide),
      pyReplace_append_pass (" thanks".toList) (" thx".toList)
        (by decide) (by decide) (by decide),
      pyReplace_append_pass (" pls".toList) (" thx".toList)
        (by decide) (by decide) (by decide),
      pyReplace_append_absorb (" thx".toList) (by decide) (by decide)]
  · rw [pyReplace_append_pass (" please".toList) (",".toList)
        (by decide) (by decide) (by decide),
      pyReplace_append_pass (" thanks".toList) (",".toList)
        (by decide) (by decide) (by decide),
      pyReplace_append_pass (" pls".toList) (",".toList)
        (by decide) (by decide) (by decide),
      pyReplace_append_pass (" thx".toList) (",".toList)
        (by decide) (by decide) (by decide),
      pyReplace_append_absorb (",".toList) (by decide) (by decide)]
  · rw [pyReplace_append_pass (" please".toList) (".".toList)
        (by decide) (by decide) (by decide),
      pyReplace_append_pass (" thanks".toList) (".".toList)
        (by decide) (by decide) (by decide),
      pyReplace_append_pass (" pls".toList) (".".toList)
        (by decide) (by decide) (by decide),
      pyReplace_append_pass (" thx".toList) (".".toList)
        (by decide) (by decide) (by decide),
      pyReplace_append_pass (",".toList) (".".toList)
        (by decide) (by decide) (by decide),
      pyReplace_append_absorb (".".toList) (by decide) (by decide)]
  · rw [pyReplace_append_pass (" please".toList) (" ?".toList)
        (by decide) (by decide) (by decide),
      pyReplace_append_pass (" thanks".toList) (" ?".toList)
        (by decide) (by decide) (by decide),
      pyReplace_append_pass (" pls".toList) (" ?".toList)
        (by decide) (by decide) (by decide),
      pyReplace_append_pass (" thx".toList) (" ?".toList)
        (by decide) (by decide) (by decide),
      pyReplace_append_pass (",".toList) (" ?".toList)
        (by decide) (by decide) (by decide),
      pyReplace_append_pass (".".toList) (" ?".toList)
        (by decide) (by decide) (by decide),
      pyReplace_append_absorb (" ?".toList) (by decide) (by decide)]

/-- `lstrip` passes over text that still contains non-whitespace. -/
theorem pyLStrip_append_ink (x f : Str)
    (hink : x.any (fun c => !c.isWhitespace) = true) :
    pyLStrip (x ++ f) = pyLStrip x ++ f := by
  induction x with
  | nil => simp at hink
  | cons c x' ih =>
    cases hc : c.isWhitespace with
    | true =>
      simp only [List.cons_append, pyLStrip, List.dropWhile_cons, hc, if_pos]
      have hink' : x'.any (fun d => !d.isWhitespace) = true := by
        simp only [List.any_cons, hc, Bool.not_true, Bool.false_or] at hink
        exact hink
      exact ih hink'
    | false =>
      simp [pyLStrip, List.dropWhile_cons, hc]

/-- `rstrip` is inert when the text ends with a non-whitespace character. -/
theorem pyRStrip_append_last (y f : Str) (c : Char) (fr : Str)
    (hf : f.reverse = c :: fr) (hc : c.isWhitespace = false) :
    pyRStrip (y ++ f) = y ++ f := by
  unfold pyRStrip
  have h1 : (y ++ f).reverse = c :: (fr ++ y.reverse) := by
    rw [List.reverse_append, hf]
    rfl
  rw [h1, List.dropWhile_cons, if_neg (by simp [hc]), ← h1, List.reverse_reverse]

/-- `strip` of inked text followed by a block ending in non-whitespace. -/
theorem pyStrip_append_ink (x f : Str)
    (hink : x.any (fun c => !c.isWhitespace) = true) (c : Char) (fr : Str)
    (hf : f.reverse = c :: fr) (hc : c.isWhitespace = false) :
    pyStrip (x ++ f) = pyLStrip x ++ f := by
  unfold pyStrip
  rw [pyLStrip_append_ink x f hink]
  exact pyRStrip_append_last (pyLStrip x) f c fr hf hc

/-- Every text is its `rstrip` followed by trailing whitespace. -/
theorem pyRStrip_decomp (y : Str) :
    ∃ w, y = pyRStrip y ++ w ∧ w.all Char.isWhitespace = true := by
  have h1 : y.reverse = y.reverse.takeWhile Char.isWhitespace ++
      y.reverse.dropWhile Char.isWhitespace :=
    (List.takeWhile_append_dropWhile _ _).symm
  have h2 : y = (y.reverse.dropWhile Char.isWhitespace).reverse ++
      (y.reverse.takeWhile Char.isWhitespace).reverse := by
    have h3 := congrArg List.reverse h1
    rw [List.reverse_reverse, List.reverse_append] at h3
    exact h3
  refine ⟨(y.reverse.takeWhile Char.isWhitespace).reverse, h2, ?_⟩
  rw [List.all_reverse, List.all_eq_true]
  exact fun c hc => List.mem_takeWhile_imp hc

/-- `lstrip` is `strip` followed by trailing whitespace. -/
theorem pyLStrip_decomp (x : Str) :
    ∃ w, pyLStrip x = pyStrip x ++ w ∧ w.all Char.isWhitespace = true := by
  rcases pyRStrip_decomp (pyLStrip x) with ⟨w, h1, h2⟩
  exact ⟨w, h1, h2⟩

/-- Dropping along an everywhere-true predicate consumes the whole text. -/
theorem dropWhile_all (p : Char → Bool) (w : Str) (hw : w.all p = true) :
    w.dropWhile p = [] := by
  induction w with
  | nil => rfl
  | cons c cs ih =>
    simp only [List.all_cons, Bool.and_eq_true] at hw
    rw [List.dropWhile_cons, if_pos (by simp [hw.1])]
    exact ih hw.2

/-- `rstrip` absorbs an all-whitespace tail. -/
theorem pyRStrip_append_ws (y w : Str) (hw : w.all Char.isWhitespace = true) :
    pyRStrip (y ++ w) = pyRStrip y := by
  unfold pyRStrip
  rw [List.reverse_append,
    dropWhile_append_all Char.isWhitespace w.reverse y.reverse
      (by rw [List.all_reverse]; exact hw)]

/-- `strip` absorbs an all-whitespace tail. -/
theorem pyStrip_append_ws (z w : Str) (hw : w.all Char.isWhitespace = true) :
    pyStrip (z ++ w) = pyStrip z := by
  unfold pyStrip pyLStrip
  rw [List.dropWhile_append]
  by_cases hz : ((z.dropWhile Char.isWhitespace).isEmpty : Bool) = true
  · rw [if_pos hz, dropWhile_all Char.isWhitespace w hw, List.isEmpty_iff.mp hz]
  · rw [if_neg hz]
    exact pyRStrip_append_ws _ w hw

/-- One trailing filler token does not change the cleaned reply, provided
the reply has any non-whitespace content. -/
theorem cleanReply_append_filler (f : Str) (hf : f ∈ fillers) (u : Str)
    (hink : (pyLower u).any (fun c => !c.isWhitespace) = true) :
    cleanReply (u ++ f) = cleanReply u := by
  have hf2 := hf
  simp only [fillers, List.mem_cons, List.not_mem_nil, or_false] at hf2
  have hlow : pyLower f = f := by
    rcases hf2 with rfl | rfl | rfl | rfl | rfl | rfl | rfl <;> decide
  have hrev : ∃ c fr, f.reverse = c :: fr ∧ c.isWhitespace = false := by
    rcases hf2 with rfl | rfl | rfl | rfl | rfl | rfl | rfl
    · exact ⟨'e', "saelp ".toList, by decide, by decide⟩
    · exact ⟨'s', "knaht ".toList, by decide, by decide⟩
    · exact ⟨'s', "lp ".toList, by decide, by decide⟩
    · exact ⟨'x', "ht ".toList, by decide, by decide⟩
    · exact ⟨',', [], by decide, by decide⟩
    · exact ⟨'.', [], by decide, by decide⟩
    · exact ⟨'?', " ".toList, by decide, by decide⟩
  rcases hrev with ⟨c, fr, hfr, hcw⟩
  have h1 : pyLower (u ++ f) = pyLower u ++ f := by
    unfold pyLower
    rw [List.map_append]
    exact congrArg _ hlow
  unfold cleanReply
  rw [h1, pyStrip_append_ink (pyLower u) f hink c fr hfr hcw,
    applyFillers_absorb f hf]
  rcases pyLStrip_decomp (pyLower u) with ⟨w, hdec, hwall⟩
  rw [hdec, applyFillers_append_ws w hwall, pyStrip_append_ws _ w hwall]

/-- One trailing filler token does not change the resolution. -/
theorem resolveReply_append_filler (candidates : List Str) (f : Str)
    (hf : f ∈ fillers) (u : Str)
    (hink : (pyLower u).any (fun c => !c.isWhitespace) = true) :
    resolveReply candidates (u ++ f) = resolveReply candidates u := by
  unfold resolveReply
  simp only [cleanReply_append_filler f hf u hink]

/-- C8: a reply built from a name (any text with non-whitespace content)
followed by any sequence of filler tokens resolves exactly like the bare
name; in particular "Nick please" resolves like "Nick". -/
theorem c8_filler_tolerance :
    (∀ (candidates : List Str) (u : Str) (gs : List Str),
        (∀ g ∈ gs, g ∈ fillers) →
        (pyLower u).any (fun c => !c.isWhitespace) = true →
        resolveReply candidates (u ++ gs.flatten) = resolveReply candidates u) ∧
      resolveReply [ "Josh Daicos".toList, "Nick Daicos".toList ]
        ("Nick please".toList) = some ("Nick Daicos".toList) ∧
      resolveReply [ "Josh Daicos".toList, "Nick Daicos".toList ]
        ("Nick".toList) = some ("Nick Daicos".toList) := by
  refine ⟨fun candidates u gs => ?_, by decide, by decide⟩
  induction gs generalizing u with
  | nil => intro _ _; simp
  | cons g gs' ih =>
    intro hgs hink
    have h1 : u ++ (g :: gs').flatten = (u ++ g) ++ gs'.flatten := by
      simp [List.append_assoc]
    have hink2 : (pyLower (u ++ g)).any (fun c => !c.isWhitespace) = true := by
      unfold pyLower
      rw [List.map_append, List.any_append, Bool.or_eq_true]
      exact Or.inl hink
    rw [h1, ih (u ++ g) (fun x hx => hgs x (by simp [hx])) hink2]
    exact resolveReply_append_filler candidates g (hgs g (by simp)) u hink

/-- Witness for C8: appending the filler " please" to the reply "Nick"
yields the same resolution as plain "Nick". -/
theorem c8_filler_tolerance_witness :
    resolveReply [ "Josh Daicos".toList, "Nick Daicos".toList ]
        ("Nick".toList ++ ([ " please".toList ] : List Str).flatten) =
      resolveReply [ "Josh Daicos".toList, "Nick Daicos".toList ]
        ("Nick".toList) :=
  c8_filler_tolerance.1 [ "Josh Daicos".toList, "Nick Daicos".toList ]
    ("Nick".toList) [ " please".toList ] (by decide) (by decide)
